import Mathlib

/-!
Verification of the version-management script for a multi-version
documentation tree (source: docs/versions.py).

Python strings are embedded as lists of characters (`Str`), filesystem
paths relative to the documentation root as lists of path segments
(`List Str`, the `parts` of a `pathlib` path), directory listings as
association lists from names to entries, and the filesystem tree as a
nested inductive of files and directories.  Fallible operations return
`Except`.  Each Python primitive used by the source (character-class
`rstrip`, single-pass `replace`, `startswith`, path joining) is given an
executable Lean counterpart with the same semantics.
-/

set_option maxRecDepth 10000

abbrev Str := List Char

/-- Python `s.rstrip(chars)`: remove the longest trailing run of characters
that belong to the character set `chars` (a character-class trim, not a
suffix removal). -/
def pyRstrip (chars s : Str) : Str :=
  ((s.reverse).dropWhile (fun c => chars.contains c)).reverse

/-- Python `s.replace(two-slashes, one-slash)`: one left-to-right pass,
replacing each non-overlapping occurrence of a doubled path separator by a
single one; replacements are not rescanned. -/
def collapseDS : Str → Str
  | [] => []
  | [c] => [c]
  | a :: b :: rest =>
    if a = '/' ∧ b = '/' then '/' :: collapseDS rest
    else a :: collapseDS (b :: rest)

/-- Python string repetition `s * n`. -/
def pyRepeat (s : Str) : Nat → Str
  | 0 => []
  | n + 1 => s ++ pyRepeat s n

/-- Python `s.startswith(p)` for a single candidate. -/
def pyStartsWith (s p : Str) : Bool :=
  p.isPrefixOf s

/-- Join path segments with the path separator (the rendering of
`Path(seg1, seg2, ...)` for a nonempty relative path). -/
def joinSegs : List Str → Str
  | [] => []
  | [x] => x
  | x :: y :: rest => x ++ '/' :: joinSegs (y :: rest)

/-- Python `str(Path(star-args parts))`: the empty argument list renders as a
single dot, otherwise the segments joined by the separator. -/
def strPath (parts : List Str) : Str :=
  match parts with
  | [] => ['.']
  | _ => joinSegs parts

/-- Split a string at every path separator (inverse of joining; used to walk
a relative link). -/
def splitSlash : Str → List Str
  | [] => [[]]
  | c :: r =>
    if c = '/' then [] :: splitSlash r
    else
      match splitSlash r with
      | [] => [[c]]
      | g :: gs => (c :: g) :: gs

/-- Whether a string contains a doubled path separator. -/
def hasDS : Str → Bool
  | [] => false
  | [_] => false
  | a :: b :: rest => (a == '/' && b == '/') || hasDS (b :: rest)

/-- One step of resolving a relative link against a directory expressed as a
segment list: a parent reference climbs one level, an empty segment (from a
trailing or doubled separator) is ignored, any other segment descends. -/
def navStep (base : List Str) (seg : Str) : List Str :=
  if seg = [] then base
  else if seg = ('.' :: '.' :: []) then base.dropLast
  else base ++ [seg]

/-- Resolve a relative link `value` starting from the directory `base`
(both relative to the documentation root). -/
def navigate (base : List Str) (value : Str) : List Str :=
  (splitSlash value).foldl navStep base

/-- A well-formed path segment: nonempty, free of the separator, and not a
parent reference. -/
def goodSeg (x : Str) : Prop :=
  x ≠ [] ∧ '/' ∉ x ∧ x ≠ ('.' :: '.' :: [])

instance (x : Str) : Decidable (goodSeg x) := by
  unfold goodSeg; infer_instance

/-! ## Embedding of `get_value_for_option`

The document is given by the `parts` of `html_filepath.relative_to(docsdir)`;
`computeOptionValue` is the value the source computes before the trailing
`rstrip` calls, and `get_value_for_option` is the returned string. -/

def computeOptionValue (parts : List Str)
    (version_in_dropdown version_in_dir latest_version : Str) : Str :=
  if version_in_dir = version_in_dropdown then
    if parts.headI = latest_version then strPath parts.tail
    else strPath parts
  else
    let rel_path :=
      if version_in_dir = latest_version then strPath parts
      else strPath parts.tail
    let rel_path_len := parts.length - 1
    let rel_version :=
      if version_in_dropdown ≠ latest_version then version_in_dropdown else []
    collapseDS (pyRepeat ("../".toList) rel_path_len ++ rel_version ++ '/' :: rel_path)

def get_value_for_option (parts : List Str)
    (version_in_dropdown version_in_dir latest_version : Str) : Str :=
  pyRstrip (".html".toList)
    (pyRstrip ("index.html".toList)
      (computeOptionValue parts version_in_dropdown version_in_dir latest_version))

/-- The pre-trim value as the specification words it: `depth` repetitions of
the parent step, then the target prefix (empty for the latest version), then
a separator, then the stripped-or-unchanged relative path, with doubled
separators collapsed in a single pass. -/
def specPreValue (parts : List Str)
    (version_in_dropdown version_in_dir latest_version : Str) : Str :=
  let depth := parts.length - 1
  let targetPref :=
    if version_in_dropdown = latest_version then [] else version_in_dropdown
  let relPath :=
    if version_in_dir = latest_version then strPath parts
    else strPath parts.tail
  collapseDS (pyRepeat ("../".toList) depth ++ targetPref ++ '/' :: relPath)

/-! ## Embedding of `get_html_filepaths`

The recursive filesystem walk `Path(docsdir).rglob` is modeled by the list
`docs` of all html documents under the documentation root, each given as its
segment list relative to the root; the walk restricted to a subdirectory
yields the documents whose first segment is that directory. -/

def get_html_filepaths (docs : List (List Str))
    (version_in_dir latest_version : Str) : List (List Str) :=
  if version_in_dir = latest_version then
    docs.filter (fun p =>
      !(pyStartsWith p.headI ("master".toList) ||
        pyStartsWith p.headI ("main".toList) ||
        pyStartsWith p.headI ("v".toList)))
  else
    docs.filter (fun p => decide (p.head? = some version_in_dir))

/-- Modelled from the spec: the document-enumeration rule as the spec words
it — for the latest version, every document whose first segment is not the
name of a tracked non-default version and not the default-branch name;
otherwise every document under the version's directory. -/
def specEnumeration (docs : List (List Str)) (version_in_dir latest_version : Str)
    (tracked_non_default : List Str) (default_branch : Str) : List (List Str) :=
  if version_in_dir = latest_version then
    docs.filter (fun p =>
      decide (p.headI ∉ tracked_non_default ∧ p.headI ≠ default_branch))
  else
    docs.filter (fun p => decide (p.head? = some version_in_dir))

/-! ## Embedding of `get_versions_status`

`os.listdir(docsdir)` is modeled by a list of entries, each a name paired
with the result of `os.path.isdir` for it.  Python's unordered set
difference is modeled as a duplicate-free filter; the claims about it are
stated through membership only. -/

def dropdown_versions_in_order (exclude_default_branch : Bool)
    (default_branch_name : Str) (last_n_versions : List Str) : List Str :=
  (if !exclude_default_branch then [default_branch_name] else []) ++ last_n_versions

/-- The loop body of `get_versions_status`: one `os.listdir` entry is
appended to the accumulated existing versions when it is a directory, the
cap is not yet reached, and it is either the included default branch or a
name starting with the letter v. -/
def statusStep (num_releases : Nat) (exclude_default_branch : Bool)
    (default_branch_name : Str) (acc : List Str) (e : Str × Bool) : List Str :=
  let num := if !exclude_default_branch then num_releases + 1 else 0
  if e.2 && decide (acc.length < num) then
    if !exclude_default_branch && (e.1 == default_branch_name) then acc ++ [e.1]
    else if pyStartsWith e.1 ("v".toList) then acc ++ [e.1]
    else acc
  else acc

def get_versions_status (entries : List (Str × Bool)) (num_releases : Nat)
    (exclude_default_branch : Bool) (default_branch_name : Str)
    (last_n_versions : List Str) : List Str × List Str :=
  let existing :=
    entries.foldl (statusStep num_releases exclude_default_branch default_branch_name) []
  let relevant :=
    last_n_versions ++ (if !exclude_default_branch then [default_branch_name] else [])
  let non_existing := relevant.dedup.filter (fun v => decide (v ∉ existing))
  (existing, non_existing)

/-- The partition property claimed for `get_versions_status`, instantiated at
one tracked version `t`: a tracked version materialized as a directory must
not be reported missing. -/
def c5_claimAt (t : Str) (entries : List (Str × Bool)) (num_releases : Nat)
    (exclude_default_branch : Bool) (default_branch_name : Str)
    (last_n_versions : List Str) : Prop :=
  t ∈ dropdown_versions_in_order exclude_default_branch default_branch_name last_n_versions →
  (t, true) ∈ entries →
  t ∉ (get_versions_status entries num_releases exclude_default_branch
        default_branch_name last_n_versions).2

/-! ## Embedding of `build_versions`

Each iteration enters a `CheckoutBranch` context (adding a worktree), removes
any stale prior output for the version, runs the external build, copies the
output back, and leaves the context (removing the worktree).  A failing
build raises; the context manager still removes the worktree, and the
exception propagates out of the for-loop.  The external build is abstracted
by a predicate `build_fails` saying which versions' builds raise. -/

structure BuildState where
  built : List Str
  cleaned : List Str
  worktrees : List Str
deriving Repr

def build_versions (build_fails : Str → Bool) (versions : List Str)
    (st : BuildState) : BuildState × Option Str :=
  match versions with
  | [] => (st, none)
  | v :: rest =>
    let st1 := { st with worktrees := st.worktrees ++ [v] }
    let st2 := { st1 with built := st1.built.erase v, cleaned := st1.cleaned ++ [v] }
    if build_fails v then
      ({ st2 with worktrees := st2.worktrees.erase v }, some v)
    else
      let st3 := { st2 with built := st2.built ++ [v] }
      let st4 := { st3 with worktrees := st3.worktrees.erase v }
      build_versions build_fails rest st4

/-- A build-failure pattern for the counterexample: exactly the tag vA
fails to build. -/
def failsVA : Str → Bool := fun v => v == ("vA".toList)

/-! ## Embedding of `move_latest_version_to_root`

The documentation root is a directory listing: an association list from
entry names to entries, each entry a file (with distinguishable content) or
a directory with its own listing.  `os.remove`/`shutil.rmtree` of a root
entry is deletion from the listing, `shutil.move(version_dir/name, docsdir)`
re-homes the named entry from the version directory's listing to the root
listing, failing (raising) when the source no longer exists — which happens
when an entry of the version directory is named like the version itself,
because the pre-move deletion of the same-named root entry then destroys
the version directory. -/

inductive FsEntry where
  | file : Nat → FsEntry
  | dir : List (Str × FsEntry) → FsEntry

abbrev Listing := List (Str × FsEntry)

def lookupEntry : Listing → Str → Option FsEntry
  | [], _ => none
  | p :: rest, name => if p.1 = name then some p.2 else lookupEntry rest name

def removeEntry (l : Listing) (name : Str) : Listing :=
  l.filter (fun p => !(p.1 == name))

def setEntry (l : Listing) (name : Str) (e : FsEntry) : Listing :=
  l.map (fun p => if p.1 = name then (name, e) else p)

/-- Whether `os.path.isdir` holds for a looked-up entry. -/
def isDirEntry : Option FsEntry → Bool
  | some (.dir _) => true
  | _ => false

/-- One iteration of the promotion loop: delete any root entry named like
the content, then move the content from the version directory up to the
root.  The move fails when the version directory, or the content inside it,
no longer exists. -/
def moveOne (latest name : Str) (root : Listing) : Except Unit Listing :=
  match lookupEntry (removeEntry root name) latest with
  | some (.dir es) =>
    match lookupEntry es name with
    | some e =>
      .ok (setEntry (removeEntry root name) latest (.dir (removeEntry es name)) ++
        [(name, e)])
    | none => .error ()
  | _ => .error ()

def moveAll (latest : Str) : List (Str × FsEntry) → Listing → Except Unit Listing
  | [], root => .ok root
  | p :: rest, root =>
    match moveOne latest p.1 root with
    | .error e => .error e
    | .ok r => moveAll latest rest r

def move_latest_version_to_root (root : Listing) (latest : Str) : Except Unit Listing :=
  match lookupEntry root latest with
  | some (.dir contents) =>
    (moveAll latest contents root).map (fun r => removeEntry r latest)
  | _ => .ok root

/-- The postcondition C6 claims for every state in which the latest
version's directory exists. -/
def c6_claimProp (root : Listing) (latest : Str) : Prop :=
  ∀ es, lookupEntry root latest = some (.dir es) →
    ∃ root', move_latest_version_to_root root latest = .ok root' ∧
      (∀ p ∈ es, lookupEntry root' p.1 = some p.2) ∧
      lookupEntry root' latest = none

/-! ## The round-trip law for link values

A document is determined by its version (`dv`), its logical directory path
(`s`, the segments between the version level and the file), and its file
name; documents produced by the dirhtml builder are named index.html.
Navigation interprets the trimmed link value (which ends in a separator,
the file name having been eaten by the trim) as the target directory, whose
document is again its index.html. -/

def mkParts (dv lat : Str) (s : List Str) : List Str :=
  (if dv = lat then s else dv :: s) ++ [("index.html".toList)]

/-- The hop-consistency property claimed for link resolution: resolving from
a document toward `v1`, navigating there, resolving again toward `v2`, lands
where a direct resolution toward `v2` lands. -/
def roundTrip (parts : List Str) (dv v1 v2 lat : Str) : Prop :=
  navigate
      (navigate parts.dropLast (get_value_for_option parts v1 dv lat))
      (get_value_for_option
        ((navigate parts.dropLast (get_value_for_option parts v1 dv lat)) ++
          [("index.html".toList)]) v2 v1 lat) =
    navigate parts.dropLast (get_value_for_option parts v2 dv lat)

/-! ## Helper lemmas about the trailing trim -/

theorem dropWhile_head_false {p : Char → Bool} {l : List Char} {c : Char}
    (h : (List.dropWhile p l).head? = some c) : p c = false := by
  induction l with
  | nil => simp [List.dropWhile] at h
  | cons a t ih =>
    by_cases hp : p a
    · rw [List.dropWhile_cons_of_pos hp] at h; exact ih h
    · rw [List.dropWhile_cons_of_neg hp] at h
      simp at h
      subst h
      exact Bool.of_not_eq_true hp

theorem dropWhile_append_all {p : Char → Bool} {a b : List Char}
    (h : ∀ c ∈ a, p c = true) : List.dropWhile p (a ++ b) = List.dropWhile p b := by
  induction a with
  | nil => rfl
  | cons x t ih =>
    have hx : p x = true := h x (List.mem_cons_self x t)
    rw [List.cons_append, List.dropWhile_cons_of_pos hx]
    exact ih (fun c hc => h c (List.mem_cons_of_mem x hc))

theorem contains_false_of_not_mem {cls : Str} {c : Char} (h : c ∉ cls) :
    cls.contains c = false := by
  by_contra hc
  exact h (List.elem_iff.mp (Bool.of_not_eq_false hc))

theorem not_mem_of_contains_false {cls : Str} {c : Char}
    (h : cls.contains c = false) : c ∉ cls := by
  intro hm
  have h' : List.elem c cls = false := h
  rw [List.elem_iff.mpr hm] at h'
  simp at h'

theorem pyRstrip_concat_not_mem {cls y : Str} {c : Char} (h : c ∉ cls) :
    pyRstrip cls (y ++ [c]) = y ++ [c] := by
  unfold pyRstrip
  rw [List.reverse_append, List.reverse_singleton, List.singleton_append,
    List.dropWhile_cons_of_neg (show ¬ ((fun c => List.contains cls c) c = true) from
      fun hcontra => h (List.elem_iff.mp hcontra)),
    List.reverse_cons, List.reverse_reverse]

theorem pyRstrip_stop {cls x f : Str} (hf : ∀ c ∈ f, c ∈ cls) (hs : '/' ∉ cls) :
    pyRstrip cls (x ++ '/' :: f) = x ++ ['/'] := by
  unfold pyRstrip
  rw [List.reverse_append, List.reverse_cons,
    List.append_assoc, dropWhile_append_all (by
      intro c hc
      exact List.elem_iff.mpr (hf c (by simpa using hc))),
    List.singleton_append,
    List.dropWhile_cons_of_neg (show ¬ ((fun c => List.contains cls c) '/' = true) from
      fun hcontra => hs (List.elem_iff.mp hcontra)),
    List.reverse_cons, List.reverse_reverse]

theorem pyRstrip_last (cls s : Str) :
    pyRstrip cls s = [] ∨
      ∃ c, (pyRstrip cls s).getLast? = some c ∧ c ∉ cls := by
  unfold pyRstrip
  cases hr : List.dropWhile (fun c => cls.contains c) s.reverse with
  | nil => exact Or.inl rfl
  | cons c t =>
    refine Or.inr ⟨c, ?_, ?_⟩
    · rw [List.reverse_cons]
      exact List.getLast?_concat ..
    · have := dropWhile_head_false (l := s.reverse) (by rw [hr]; rfl)
      exact not_mem_of_contains_false this

theorem pyRstrip_subset {cls1 cls2 : Str} (hsub : ∀ c ∈ cls2, c ∈ cls1) (s : Str) :
    pyRstrip cls2 (pyRstrip cls1 s) = pyRstrip cls1 s := by
  rcases pyRstrip_last cls1 s with h | ⟨c, hl, hc⟩
  · rw [h]; rfl
  · rcases List.getLast?_eq_some_iff.mp hl with ⟨y, hy⟩
    rw [hy]
    exact pyRstrip_concat_not_mem (fun hm => hc (hsub c hm))

/-! ## C1, C2, C9, C10: the link-value computation -/

/-- C1: for `versionInDropdown ≠ versionInDir` the pre-trim value computed by
`get_value_for_option` is `depth` repetitions of the parent step (depth taken
from the original relative path), then the target prefix (empty when the
target is the latest version), then a separator, then the relative path
(unchanged when the document's version is the latest, else with its leading
version segment removed), with doubled separators collapsed in a single
non-iterative pass. -/
theorem c1_pre_trim_value (parts : List Str) (vdrop vdir lat : Str)
    (h : vdrop ≠ vdir) :
    computeOptionValue parts vdrop vdir lat = specPreValue parts vdrop vdir lat ∧
    get_value_for_option parts vdrop vdir lat =
      pyRstrip (".html".toList)
        (pyRstrip ("index.html".toList) (specPreValue parts vdrop vdir lat)) := by
  have h1 : computeOptionValue parts vdrop vdir lat = specPreValue parts vdrop vdir lat := by
    unfold computeOptionValue specPreValue
    rw [if_neg (fun he => h he.symm)]
    by_cases hl : vdrop = lat <;> simp [hl]
  exact ⟨h1, by rw [get_value_for_option, h1]⟩

theorem c1_witness :
    ("master".toList ≠ "v1.2.3".toList) ∧
    (computeOptionValue [("v1.2.3".toList), ("index.html".toList)]
        ("master".toList) ("v1.2.3".toList) ("v1.2.4".toList) =
      specPreValue [("v1.2.3".toList), ("index.html".toList)]
        ("master".toList) ("v1.2.3".toList) ("v1.2.4".toList)) :=
  ⟨by decide,
    (c1_pre_trim_value [("v1.2.3".toList), ("index.html".toList)]
      ("master".toList) ("v1.2.3".toList) ("v1.2.4".toList) (by decide)).1⟩

/-- C2: the final step strips from the right end any trailing run of
characters drawn from the characters of the text index.html, applied twice in
sequence (first that set, then the characters of the text .html, the second
pass being subsumed by the first); it is a character-class trim, so a value
ending in annex.html is over-trimmed beyond the suffix, down to the letter a. -/
theorem c2_character_class_trim :
    (∀ parts vdrop vdir lat, get_value_for_option parts vdrop vdir lat =
        pyRstrip (".html".toList)
          (pyRstrip ("index.html".toList) (computeOptionValue parts vdrop vdir lat))) ∧
    (∀ parts vdrop vdir lat, get_value_for_option parts vdrop vdir lat =
        pyRstrip ("index.html".toList) (computeOptionValue parts vdrop vdir lat)) ∧
    get_value_for_option [("master".toList), ("annex.html".toList)]
        ("master".toList) ("master".toList) ("v9".toList) = ("master/a".toList) ∧
    ("master/a".toList ≠ "master/annex".toList) := by
  refine ⟨fun _ _ _ _ => rfl, fun parts vdrop vdir lat => ?_, by decide, by decide⟩
  exact pyRstrip_subset (by decide) _

/-- C9 counterexample: a depth-zero document named index.html sitting at the
promoted root, resolved with the promoted version itself as the target, does
not return its own relative path — the trailing character-class trim empties
the value. -/
theorem c9_counterexample :
    get_value_for_option [("index.html".toList)]
        ("v1.2.3".toList) ("v1.2.3".toList) ("v1.2.3".toList) ≠ ("index.html".toList) := by
  decide

/-- C9 amended: for a depth-zero document at the promoted root whose name is
not the latest-version string, resolving with the promoted version itself as
the target yields, as the pre-trim value, exactly the document's own relative
path with no parent-step prefix; the returned string is that path with the
trailing character-class trim applied. -/
theorem c9_amended (name lat : Str) (h : name ≠ lat) :
    computeOptionValue [name] lat lat lat = name ∧
    get_value_for_option [name] lat lat lat =
      pyRstrip (".html".toList) (pyRstrip ("index.html".toList) name) := by
  have h1 : computeOptionValue [name] lat lat lat = name := by
    unfold computeOptionValue
    rw [if_pos rfl, if_neg (by simpa [List.headI] using h)]
    rfl
  exact ⟨h1, by rw [get_value_for_option, h1]⟩

theorem c9_witness :
    (("page.html".toList : Str) ≠ ("v1.2.3".toList)) ∧
    computeOptionValue [("page.html".toList)]
        ("v1.2.3".toList) ("v1.2.3".toList) ("v1.2.3".toList) = ("page.html".toList) :=
  ⟨by decide,
    (c9_amended ("page.html".toList) ("v1.2.3".toList) (by decide)).1⟩

/-- C10: every value returned by `get_value_for_option` is either empty or
ends in a character outside the characters of the text index.html; in
particular a document named index.html directly at the promoted root, with
both the directory version and the dropdown target equal to the latest
version, yields the empty string. -/
theorem c10_trim_invariant :
    (∀ parts vdrop vdir lat,
        get_value_for_option parts vdrop vdir lat = [] ∨
        ∃ c, (get_value_for_option parts vdrop vdir lat).getLast? = some c ∧
          c ∉ ("index.html".toList)) ∧
    get_value_for_option [("index.html".toList)]
        ("v1.2.3".toList) ("v1.2.3".toList) ("v1.2.3".toList) = [] := by
  refine ⟨fun parts vdrop vdir lat => ?_, by decide⟩
  have hsingle : get_value_for_option parts vdrop vdir lat =
      pyRstrip ("index.html".toList) (computeOptionValue parts vdrop vdir lat) :=
    pyRstrip_subset (by decide) _
  rw [hsingle]
  exact pyRstrip_last _ _

/-! ## C3: document enumeration -/

/-- C3 counterexample: with tracked versions limited to v1.2.3 and default
branch master, a promoted root-level document whose first segment is videos
is yielded by the spec's enumeration rule but skipped by the code, because
the code filters by a startswith test on master, main and the letter v,
not by membership in the tracked-version set. -/
theorem c3_counterexample :
    get_html_filepaths [[("videos".toList), ("index.html".toList)]]
        ("v1.2.3".toList) ("v1.2.3".toList) ≠
      specEnumeration [[("videos".toList), ("index.html".toList)]]
        ("v1.2.3".toList) ("v1.2.3".toList) [("v1.2.3".toList)] ("master".toList) := by
  decide

/-- C3 amended: when `versionInDir` equals the latest version,
`get_html_filepaths` yields exactly the documents whose first path segment
does not start with master, main or the letter v; otherwise it yields every
document under the version's own directory recursively. -/
theorem c3_amended (docs : List (List Str)) (vdir lat : Str) (p : List Str) :
    p ∈ get_html_filepaths docs vdir lat ↔
      p ∈ docs ∧
        (if vdir = lat then
          ¬(pyStartsWith p.headI ("master".toList) = true ∨
            pyStartsWith p.headI ("main".toList) = true ∨
            pyStartsWith p.headI ("v".toList) = true)
        else p.head? = some vdir) := by
  unfold get_html_filepaths
  by_cases h : vdir = lat
  · simp [h, List.mem_filter, not_or, and_assoc]
  · simp [h, List.mem_filter]

/-! ## C5: partition of tracked versions into existing and missing -/

theorem statusStep_mem {num : Nat} {excl : Bool} {dflt : Str}
    {acc : List Str} {e : Str × Bool} {x : Str}
    (h : x ∈ statusStep num excl dflt acc e) :
    x ∈ acc ∨ (e = (x, true) ∧
      ((excl = false ∧ x = dflt) ∨ pyStartsWith x ("v".toList) = true)) := by
  unfold statusStep at h
  by_cases hg : e.2 && decide (acc.length < if !excl then num + 1 else 0)
  · rw [if_pos hg] at h
    have he2 : e.2 = true := (Bool.and_eq_true ..).mp hg |>.1
    by_cases h1 : !excl && (e.1 == dflt)
    · rw [if_pos h1] at h
      rcases List.mem_append.mp h with hx | hx
      · exact Or.inl hx
      · have h1' := (Bool.and_eq_true ..).mp h1
        have hx1 : x = e.1 := by simpa using hx
        refine Or.inr ⟨?_, Or.inl ⟨by simpa using h1'.1, ?_⟩⟩
        · rw [hx1, ← he2]
        · rw [hx1]; exact eq_of_beq h1'.2
    · rw [if_neg h1] at h
      by_cases h2 : pyStartsWith e.1 ("v".toList)
      · rw [if_pos h2] at h
        rcases List.mem_append.mp h with hx | hx
        · exact Or.inl hx
        · have hx1 : x = e.1 := by simpa using hx
          exact Or.inr ⟨by rw [hx1, ← he2], Or.inr (by rw [hx1]; exact h2)⟩
      · rw [if_neg h2] at h
        exact Or.inl h
  · rw [if_neg hg] at h
    exact Or.inl h

theorem existing_fold_mem {num : Nat} {excl : Bool} {dflt : Str} :
    ∀ (entries : List (Str × Bool)) (acc : List Str) (x : Str),
      x ∈ entries.foldl (statusStep num excl dflt) acc →
      x ∈ acc ∨ ((x, true) ∈ entries ∧
        ((excl = false ∧ x = dflt) ∨ pyStartsWith x ("v".toList) = true)) := by
  intro entries
  induction entries with
  | nil => exact fun acc x h => Or.inl h
  | cons e rest ih =>
    intro acc x h
    rcases ih (statusStep num excl dflt acc e) x h with hx | ⟨hm, hc⟩
    · rcases statusStep_mem hx with hx' | ⟨he, hc⟩
      · exact Or.inl hx'
      · exact Or.inr ⟨by rw [he]; exact List.mem_cons_self .., hc⟩
    · exact Or.inr ⟨List.mem_cons_of_mem e hm, hc⟩

theorem existing_fold_excluded {num : Nat} {dflt : Str} :
    ∀ (entries : List (Str × Bool)) (acc : List Str),
      entries.foldl (statusStep num true dflt) acc = acc := by
  intro entries
  induction entries with
  | nil => exact fun acc => rfl
  | cons e rest ih =>
    intro acc
    have hstep : statusStep num true dflt acc e = acc := by
      unfold statusStep
      simp
    rw [List.foldl_cons, hstep, ih acc]

/-- C5 counterexample: with the default branch excluded, the scan cap
becomes zero instead of the number of releases, so a tracked version
materialized on disk (v1.2.3, present as a directory) is still reported
missing — the claimed partition against materialized versions fails. -/
theorem c5_counterexample :
    ¬ c5_claimAt ("v1.2.3".toList) [(("v1.2.3".toList), true)] 3 true
        ("master".toList) [("v1.2.3".toList)] := by
  unfold c5_claimAt
  decide

/-- C5 amended: `existingVersions` collects, in listing order, up to cap
directory entries whose name is the included default branch or starts with
the letter v — regardless of tracked membership — where the cap is
`num_releases + 1` when the default branch is included and zero when it is
excluded (so nothing is ever marked existing in the excluded configuration);
`missingVersions` holds exactly the tracked versions not so collected. -/
theorem c5_amended :
    (∀ entries num_releases exclude_default_branch default_branch_name
        last_n_versions (t : Str),
      t ∈ (get_versions_status entries num_releases exclude_default_branch
            default_branch_name last_n_versions).2 ↔
        (t ∈ last_n_versions ∨
          (exclude_default_branch = false ∧ t = default_branch_name)) ∧
        t ∉ (get_versions_status entries num_releases exclude_default_branch
              default_branch_name last_n_versions).1) ∧
    (∀ entries num_releases default_branch_name last_n_versions,
      (get_versions_status entries num_releases true default_branch_name
        last_n_versions).1 = []) ∧
    (∀ entries num_releases exclude_default_branch default_branch_name
        last_n_versions (x : Str),
      x ∈ (get_versions_status entries num_releases exclude_default_branch
            default_branch_name last_n_versions).1 →
        (x, true) ∈ entries ∧
          ((exclude_default_branch = false ∧ x = default_branch_name) ∨
            pyStartsWith x ("v".toList) = true)) := by
  refine ⟨?_, ?_, ?_⟩
  · intro entries num excl dflt lastn t
    show t ∈ (_ ++ if !excl then [dflt] else []).dedup.filter _ ↔ _
    rw [List.mem_filter]
    simp only [decide_eq_true_eq, List.mem_dedup, List.mem_append]
    constructor
    · rintro ⟨h1, h2⟩
      refine ⟨?_, h2⟩
      rcases h1 with h1 | h1
      · exact Or.inl h1
      · cases hx : excl with
        | true => rw [hx] at h1; simp at h1
        | false => rw [hx] at h1; exact Or.inr ⟨rfl, by simpa using h1⟩
    · rintro ⟨h1, h2⟩
      refine ⟨?_, h2⟩
      rcases h1 with h1 | ⟨hx, ht⟩
      · exact Or.inl h1
      · rw [hx, ht]; simp
  · intro entries num dflt lastn
    exact existing_fold_excluded entries []
  · intro entries num excl dflt lastn x h
    rcases existing_fold_mem entries [] x h with hx | hx
    · simp at hx
    · exact hx

theorem c5_witness :
    ("v1.2.4".toList) ∈ (get_versions_status
        [(("master".toList), true), (("v1.2.3".toList), true)] 3 false
        ("master".toList) [("v1.2.3".toList), ("v1.2.4".toList)]).2 :=
  (c5_amended.1 _ _ _ _ _ _).mpr ⟨Or.inl (by decide), by decide⟩

/-! ## C4: failure semantics of `build_versions` -/

/-- C4 counterexample: with versions vA and vB in the list and only vA's
build failing, the failure propagates out of the loop — vB, although its
build would succeed, is never processed, so a failure in one version does
abort the processing of the remaining versions. -/
theorem c4_counterexample :
    (build_versions failsVA [("vA".toList), ("vB".toList)] ⟨[], [], []⟩).2 =
        some ("vA".toList) ∧
    ("vB".toList) ∉
      (build_versions failsVA [("vA".toList), ("vB".toList)] ⟨[], [], []⟩).1.built ∧
    failsVA ("vB".toList) = false := by
  decide

theorem build_versions_fail_aux (build_fails : Str → Bool) (v : Str)
    (post : List Str) (hfail : build_fails v = true) :
    ∀ (pre : List Str) (st : BuildState),
      (∀ u ∈ pre, build_fails u = false) →
      pre.Nodup → v ∉ pre →
      (∀ u ∈ pre, u ∉ st.built ∧ u ∉ st.worktrees) →
      v ∉ st.built → v ∉ st.worktrees →
      build_versions build_fails (pre ++ v :: post) st =
        (⟨st.built ++ pre, st.cleaned ++ pre ++ [v], st.worktrees⟩, some v) := by
  intro pre
  induction pre with
  | nil =>
    intro st _ _ _ _ hvb hvw
    simp only [List.nil_append]
    rw [build_versions]
    simp only [List.erase_of_not_mem hvb, hfail, if_pos]
    rw [List.erase_append_right _ (by simpa using hvw), List.erase_cons_head]
    simp
  | cons p pre' ih =>
    intro st hok hnd hv hst hvb hvw
    have hpf : build_fails p = false := hok p (List.mem_cons_self ..)
    have hpb : p ∉ st.built := (hst p (List.mem_cons_self ..)).1
    have hpw : p ∉ st.worktrees := (hst p (List.mem_cons_self ..)).2
    rw [List.cons_append, build_versions]
    simp only [List.erase_of_not_mem hpb, hpf, Bool.false_eq_true, if_false]
    rw [List.erase_append_right _ (by simpa using hpw), List.erase_cons_head,
      List.append_nil]
    have := ih ⟨st.built ++ [p], st.cleaned ++ [p], st.worktrees⟩
      (fun u hu => hok u (List.mem_cons_of_mem p hu))
      (List.Nodup.of_cons hnd)
      (fun hm => hv (List.mem_cons_of_mem p hm))
      (fun u hu => ⟨by
          simp only [List.mem_append, List.mem_singleton]
          rintro (h1 | h2)
          · exact (hst u (List.mem_cons_of_mem p hu)).1 h1
          · exact (List.nodup_cons.mp hnd).1 (h2 ▸ hu), 
        (hst u (List.mem_cons_of_mem p hu)).2⟩)
      (by
        simp only [List.mem_append, List.mem_singleton]
        rintro (h1 | h2)
        · exact hvb h1
        · exact hv (h2 ▸ List.mem_cons_self ..))
      hvw
    rw [this]
    simp [List.append_assoc]
  
/-- C4 amended: a failure inside the isolate/build steps for one version
aborts that version's sequence and the processing of every later version in
the list — the exception propagates out of `build_versions` — while the
failing version's worktree is still removed; versions before the failing one
are built, the failure is reported once (as the propagated exception) and
not retried. -/
theorem c4_amended (build_fails : Str → Bool) (pre : List Str) (v : Str)
    (post : List Str)
    (hpre : ∀ u ∈ pre, build_fails u = false) (hfail : build_fails v = true)
    (hnodup : pre.Nodup) (hv : v ∉ pre) :
    build_versions build_fails (pre ++ v :: post) ⟨[], [], []⟩ =
      (⟨pre, pre ++ [v], []⟩, some v) := by
  have := build_versions_fail_aux build_fails v post hfail pre ⟨[], [], []⟩
    hpre hnodup hv (fun u _ => ⟨List.not_mem_nil u, List.not_mem_nil u⟩)
    (List.not_mem_nil v) (List.not_mem_nil v)
  simpa using this

theorem c4_witness :
    build_versions failsVA ([("vP".toList)] ++ ("vA".toList) :: [("vB".toList)])
        ⟨[], [], []⟩ =
      (⟨[("vP".toList)], [("vP".toList)] ++ [("vA".toList)], []⟩,
        some ("vA".toList)) :=
  c4_amended failsVA [("vP".toList)] ("vA".toList) [("vB".toList)]
    (by decide) (by decide) (by decide) (by decide)

/-! ## C6, C7: promotion of the latest version to the root -/

theorem lookup_nil (n : Str) : lookupEntry [] n = none := rfl

theorem lookup_cons (p : Str × FsEntry) (rest : Listing) (n : Str) :
    lookupEntry (p :: rest) n =
      if p.1 = n then some p.2 else lookupEntry rest n := rfl

theorem removeEntry_cons (p : Str × FsEntry) (rest : Listing) (n : Str) :
    removeEntry (p :: rest) n =
      if p.1 = n then removeEntry rest n else p :: removeEntry rest n := by
  unfold removeEntry
  rw [List.filter_cons]
  by_cases h : p.1 = n
  · simp [h]
  · simp [h]

theorem setEntry_cons (p : Str × FsEntry) (rest : Listing) (n : Str) (d : FsEntry) :
    setEntry (p :: rest) n d =
      (if p.1 = n then (n, d) else p) :: setEntry rest n d := by
  unfold setEntry
  rw [List.map_cons]

theorem lookup_removeEntry_self (l : Listing) (n : Str) :
    lookupEntry (removeEntry l n) n = none := by
  induction l with
  | nil => rfl
  | cons p rest ih =>
    rw [removeEntry_cons]
    by_cases h : p.1 = n
    · rw [if_pos h]; exact ih
    · rw [if_neg h, lookup_cons, if_neg h]; exact ih

theorem lookup_removeEntry_ne {l : Listing} {m n : Str} (h : m ≠ n) :
    lookupEntry (removeEntry l n) m = lookupEntry l m := by
  induction l with
  | nil => rfl
  | cons p rest ih =>
    rw [removeEntry_cons]
    by_cases hp : p.1 = n
    · rw [if_pos hp, ih, lookup_cons, if_neg (fun he => h (he.symm.trans hp))]
    · rw [if_neg hp, lookup_cons, lookup_cons]
      by_cases hm : p.1 = m
      · rw [if_pos hm, if_pos hm]
      · rw [if_neg hm, if_neg hm]; exact ih

theorem lookup_setEntry_self {l : Listing} {n : Str} {e0 : FsEntry}
    (h : lookupEntry l n = some e0) (d : FsEntry) :
    lookupEntry (setEntry l n d) n = some d := by
  induction l with
  | nil => exact absurd h (by rw [lookup_nil]; exact Option.noConfusion)
  | cons p rest ih =>
    rw [setEntry_cons]
    by_cases hp : p.1 = n
    · rw [if_pos hp, lookup_cons, if_pos rfl]
    · rw [if_neg hp, lookup_cons, if_neg hp]
      rw [lookup_cons, if_neg hp] at h
      exact ih h

theorem lookup_setEntry_ne {l : Listing} {m n : Str} (h : m ≠ n) (d : FsEntry) :
    lookupEntry (setEntry l n d) m = lookupEntry l m := by
  induction l with
  | nil => rfl
  | cons p rest ih =>
    rw [setEntry_cons]
    by_cases hp : p.1 = n
    · rw [if_pos hp, lookup_cons, lookup_cons,
        if_neg (show ¬ ((n, d).1 = m) from fun he => h he.symm),
        if_neg (fun he => h (he.symm.trans hp))]
      exact ih
    · rw [if_neg hp, lookup_cons, lookup_cons]
      by_cases hm : p.1 = m
      · rw [if_pos hm, if_pos hm]
      · rw [if_neg hm, if_neg hm]; exact ih

theorem lookup_append_left {a b : Listing} {m : Str} {e : FsEntry}
    (h : lookupEntry a m = some e) : lookupEntry (a ++ b) m = some e := by
  induction a with
  | nil => exact absurd h (by rw [lookup_nil]; exact Option.noConfusion)
  | cons p rest ih =>
    rw [List.cons_append, lookup_cons]
    rw [lookup_cons] at h
    by_cases hp : p.1 = m
    · rwa [if_pos hp] at h ⊢
    · rw [if_neg hp] at h ⊢; exact ih h

theorem lookup_append_right {a b : Listing} {m : Str}
    (h : lookupEntry a m = none) : lookupEntry (a ++ b) m = lookupEntry b m := by
  induction a with
  | nil => rfl
  | cons p rest ih =>
    rw [List.cons_append, lookup_cons]
    rw [lookup_cons] at h
    by_cases hp : p.1 = m
    · rw [if_pos hp] at h; exact absurd h (by exact Option.noConfusion)
    · rw [if_neg hp] at h ⊢; exact ih h

theorem lookup_self_of_nodup {l : Listing} (hnd : (l.map Prod.fst).Nodup) :
    ∀ p ∈ l, lookupEntry l p.1 = some p.2 := by
  induction l with
  | nil => intro p hp; exact absurd hp (List.not_mem_nil p)
  | cons q rest ih =>
    have hnd2 : (q.1 :: rest.map Prod.fst).Nodup := by
      rw [List.map_cons] at hnd; exact hnd
    have hq1 : q.1 ∉ rest.map Prod.fst := (List.nodup_cons.mp hnd2).1
    have hrest : (rest.map Prod.fst).Nodup := (List.nodup_cons.mp hnd2).2
    intro p hp
    rcases List.mem_cons.mp hp with hq | hq
    · subst hq
      rw [lookup_cons, if_pos rfl]
    · have hne : q.1 ≠ p.1 := by
        intro he
        apply hq1
        rw [he]
        exact List.mem_map_of_mem Prod.fst hq
      rw [lookup_cons, if_neg hne]
      exact ih hrest p hq

theorem moveOne_ok {latest name : Str} {root es : Listing} {e : FsEntry}
    (hne : name ≠ latest)
    (hdir : lookupEntry root latest = some (.dir es))
    (hin : lookupEntry es name = some e) :
    moveOne latest name root =
      .ok (setEntry (removeEntry root name) latest (.dir (removeEntry es name)) ++
        [(name, e)]) := by
  unfold moveOne
  rw [lookup_removeEntry_ne (fun h => hne h.symm), hdir]
  show (match lookupEntry es name with
    | some e =>
      Except.ok (setEntry (removeEntry root name) latest
        (FsEntry.dir (removeEntry es name)) ++ [(name, e)])
    | none => Except.error ()) = _
  rw [hin]

theorem moveAll_cons (latest : Str) (p : Str × FsEntry) (rest : List (Str × FsEntry))
    (root : Listing) :
    moveAll latest (p :: rest) root =
      match moveOne latest p.1 root with
      | .error e => .error e
      | .ok r => moveAll latest rest r := rfl

theorem moveAll_spec (latest : Str) :
    ∀ (todo : List (Str × FsEntry)) (root : Listing) (esCur : Listing),
      lookupEntry root latest = some (.dir esCur) →
      (∀ p ∈ todo, lookupEntry esCur p.1 = some p.2) →
      (todo.map Prod.fst).Nodup →
      latest ∉ todo.map Prod.fst →
      ∃ fin, moveAll latest todo root = .ok fin ∧
        (∀ p ∈ todo, lookupEntry fin p.1 = some p.2) ∧
        (∀ n, n ∉ todo.map Prod.fst → n ≠ latest →
          lookupEntry fin n = lookupEntry root n) := by
  intro todo
  induction todo with
  | nil =>
    intro root esCur _ _ _ _
    exact ⟨root, rfl, fun p hp => absurd hp (List.not_mem_nil p), fun n _ _ => rfl⟩
  | cons p rest ih =>
    intro root esCur hdir hmem hnd hnl
    have hpl : p.1 ≠ latest := by
      intro he
      apply hnl
      rw [← he]
      exact List.mem_map_of_mem Prod.fst (List.mem_cons_self p rest)
    have hin : lookupEntry esCur p.1 = some p.2 := hmem p (List.mem_cons_self p rest)
    have hnd2 : (p.1 :: rest.map Prod.fst).Nodup := by
      rw [List.map_cons] at hnd; exact hnd
    have hnd' : (rest.map Prod.fst).Nodup := (List.nodup_cons.mp hnd2).2
    have hp1rest : p.1 ∉ rest.map Prod.fst := (List.nodup_cons.mp hnd2).1
    have hnl' : latest ∉ rest.map Prod.fst := by
      intro hm
      apply hnl
      rw [List.map_cons]
      exact List.mem_cons_of_mem p.1 hm
    have hpre : lookupEntry (removeEntry root p.1) latest = some (.dir esCur) := by
      rw [lookup_removeEntry_ne (Ne.symm hpl)]
      exact hdir
    have hdir2 : lookupEntry (setEntry (removeEntry root p.1) latest
        (.dir (removeEntry esCur p.1)) ++ [(p.1, p.2)]) latest =
        some (.dir (removeEntry esCur p.1)) :=
      lookup_append_left (lookup_setEntry_self hpre _)
    have hmem2 : ∀ q ∈ rest, lookupEntry (removeEntry esCur p.1) q.1 = some q.2 := by
      intro q hq
      have hqe : q.1 ≠ p.1 := by
        intro he
        apply hp1rest
        rw [← he]
        exact List.mem_map_of_mem Prod.fst hq
      rw [lookup_removeEntry_ne hqe]
      exact hmem q (List.mem_cons_of_mem p hq)
    obtain ⟨fin, hok, hfin, hpres⟩ :=
      ih (setEntry (removeEntry root p.1) latest
          (.dir (removeEntry esCur p.1)) ++ [(p.1, p.2)])
        (removeEntry esCur p.1) hdir2 hmem2 hnd' hnl'
    have hroot2self : lookupEntry (setEntry (removeEntry root p.1) latest
        (.dir (removeEntry esCur p.1)) ++ [(p.1, p.2)]) p.1 = some p.2 := by
      rw [lookup_append_right (by
        rw [lookup_setEntry_ne hpl]
        exact lookup_removeEntry_self root p.1)]
      rw [lookup_cons, if_pos rfl]
    refine ⟨fin, ?_, ?_, ?_⟩
    · rw [moveAll_cons, moveOne_ok hpl hdir hin]
      exact hok
    · intro q hq
      rcases List.mem_cons.mp hq with hq1 | hq1
      · subst hq1
        rw [hpres q.1 hp1rest hpl]
        exact hroot2self
      · exact hfin q hq1
    · intro n hn hnlat
      have hn1 : n ∉ rest.map Prod.fst := by
        intro hm
        apply hn
        rw [List.map_cons]
        exact List.mem_cons_of_mem p.1 hm
      have hnp : n ≠ p.1 := by
        intro he
        apply hn
        rw [List.map_cons, he]
        exact List.mem_cons_self p.1 (rest.map Prod.fst)
      rw [hpres n hn1 hnlat]
      cases hcase : lookupEntry (setEntry (removeEntry root p.1) latest
          (.dir (removeEntry esCur p.1))) n with
      | some x =>
        rw [lookup_append_left hcase]
        rw [lookup_setEntry_ne hnlat _, lookup_removeEntry_ne hnp] at hcase
        exact hcase.symm
      | none =>
        rw [lookup_append_right hcase]
        rw [lookup_setEntry_ne hnlat _, lookup_removeEntry_ne hnp] at hcase
        rw [hcase, lookup_cons, if_neg (fun he => hnp he.symm), lookup_nil]

/-- C6 counterexample: when an entry of the latest version's directory is
named like the version itself, the pre-move deletion of the same-named root
entry destroys the version directory and the subsequent move raises, so the
claimed promotion postcondition fails for that state. -/
theorem c6_counterexample :
    ¬ c6_claimProp [(("v1".toList), .dir [(("v1".toList), .file 0)])] ("v1".toList) := by
  intro h
  obtain ⟨r', hr, -, -⟩ := h [(("v1".toList), .file 0)] rfl
  rw [show move_latest_version_to_root
      [(("v1".toList), .dir [(("v1".toList), .file 0)])] ("v1".toList) =
      .error () from rfl] at hr
  exact Except.noConfusion hr

/-- C6 amended: for every state in which the latest version's directory
exists, whose listing has no duplicate names and no entry named like the
version itself, promotion succeeds, every entry formerly under the version
directory is afterwards found directly at the root (any same-named root
entry having been deleted first), and the version directory itself is gone. -/
theorem c6_amended (root : Listing) (latest : Str) (es : Listing)
    (hdir : lookupEntry root latest = some (.dir es))
    (hnl : latest ∉ es.map Prod.fst)
    (hnd : (es.map Prod.fst).Nodup) :
    ∃ root', move_latest_version_to_root root latest = .ok root' ∧
      (∀ p ∈ es, lookupEntry root' p.1 = some p.2) ∧
      lookupEntry root' latest = none := by
  obtain ⟨fin, hok, hmem, -⟩ :=
    moveAll_spec latest es root es hdir (lookup_self_of_nodup hnd) hnd hnl
  refine ⟨removeEntry fin latest, ?_, ?_, lookup_removeEntry_self fin latest⟩
  · unfold move_latest_version_to_root
    rw [hdir]
    show (moveAll latest es root).map (fun r => removeEntry r latest) = _
    rw [hok]
    rfl
  · intro p hp
    have hpn : p.1 ≠ latest := by
      intro he
      apply hnl
      rw [← he]
      exact List.mem_map_of_mem Prod.fst hp
    rw [lookup_removeEntry_ne hpn]
    exact hmem p hp

theorem c6_witness :
    ∃ root', move_latest_version_to_root
        [(("index.html".toList), FsEntry.file 0),
         (("v1.2.4".toList), FsEntry.dir
            [(("index.html".toList), FsEntry.file 1),
             (("sub".toList), FsEntry.dir [])])]
        ("v1.2.4".toList) = .ok root' ∧
      (∀ p ∈ [(("index.html".toList), FsEntry.file 1),
              (("sub".toList), FsEntry.dir [])],
        lookupEntry root' p.1 = some p.2) ∧
      lookupEntry root' ("v1.2.4".toList) = none :=
  c6_amended _ _ _ rfl (by decide) (by decide)

/-- C7: when the latest version's directory is absent (the isdir test of the
source fails), promotion is skipped with only a warning, the function
returns normally, and the documentation tree is left completely unchanged. -/
theorem c7_missing_latest (root : Listing) (latest : Str)
    (h : isDirEntry (lookupEntry root latest) = false) :
    move_latest_version_to_root root latest = .ok root := by
  unfold move_latest_version_to_root
  cases hl : lookupEntry root latest with
  | none => rfl
  | some e =>
    cases e with
    | file n => rfl
    | dir es =>
      rw [hl] at h
      exact absurd h (by simp [isDirEntry])

theorem c7_witness :
    move_latest_version_to_root [(("index.html".toList), FsEntry.file 0)]
        ("v1.2.4".toList) =
      .ok [(("index.html".toList), FsEntry.file 0)] :=
  c7_missing_latest _ _ rfl

/-! ## C8: string-level lemmas for the round-trip law -/

theorem joinSegs_cons_cons (x y : Str) (rest : List Str) :
    joinSegs (x :: y :: rest) = x ++ '/' :: joinSegs (y :: rest) := rfl

theorem joinSegs_append_last :
    ∀ (P : List Str), P ≠ [] → ∀ z : Str,
      joinSegs (P ++ [z]) = joinSegs P ++ '/' :: z := by
  intro P
  induction P with
  | nil => intro h; exact absurd rfl h
  | cons x P' ih =>
    intro _ z
    cases P' with
    | nil => rfl
    | cons y P'' =>
      show x ++ '/' :: joinSegs ((y :: P'') ++ [z]) =
        (x ++ '/' :: joinSegs (y :: P'')) ++ '/' :: z
      rw [ih (List.cons_ne_nil y P'') z, List.append_assoc]
      rfl

theorem strPath_eq_joinSegs {parts : List Str} (h : parts ≠ []) :
    strPath parts = joinSegs parts := by
  cases parts with
  | nil => exact absurd rfl h
  | cons x rest => rfl

theorem joinSegs_head (x : Str) (rest : List Str) :
    ∃ z : Str, joinSegs (x :: rest) = x ++ z := by
  cases rest with
  | nil => exact ⟨[], (List.append_nil x).symm⟩
  | cons y r => exact ⟨'/' :: joinSegs (y :: r), rfl⟩

theorem splitSlash_ne_nil (s : Str) : splitSlash s ≠ [] := by
  cases s with
  | nil => exact List.cons_ne_nil [] []
  | cons c r =>
    unfold splitSlash
    by_cases h : c = '/'
    · rw [if_pos h]
      exact List.cons_ne_nil [] (splitSlash r)
    · rw [if_neg h]
      cases hsr : splitSlash r with
      | nil => exact List.cons_ne_nil [c] []
      | cons g gs => exact List.cons_ne_nil (c :: g) gs

theorem splitSlash_slash (r : Str) : splitSlash ('/' :: r) = [] :: splitSlash r := rfl

theorem splitSlash_cons_ne {c : Char} (h : c ≠ '/') (r : Str) :
    splitSlash (c :: r) = (c :: (splitSlash r).headI) :: (splitSlash r).tail := by
  have hstep : splitSlash (c :: r) =
      match splitSlash r with
      | [] => [[c]]
      | g :: gs => (c :: g) :: gs := by
    show (if c = '/' then [] :: splitSlash r
      else
        match splitSlash r with
        | [] => [[c]]
        | g :: gs => (c :: g) :: gs) = _
    rw [if_neg h]
  rw [hstep]
  cases hsr : splitSlash r with
  | nil => exact absurd hsr (splitSlash_ne_nil r)
  | cons g gs => rfl

theorem splitSlash_append_seg {x : Str} (hx : '/' ∉ x) :
    ∀ s : Str, splitSlash (x ++ s) =
      (x ++ (splitSlash s).headI) :: (splitSlash s).tail := by
  induction x with
  | nil =>
    intro s
    rw [List.nil_append]
    cases hsr : splitSlash s with
    | nil => exact absurd hsr (splitSlash_ne_nil s)
    | cons g gs => rfl
  | cons c x' ih =>
    intro s
    have hc : c ≠ '/' := fun he => hx (he ▸ List.mem_cons_self c x')
    have hx' : '/' ∉ x' := fun hm => hx (List.mem_cons_of_mem c hm)
    rw [List.cons_append, splitSlash_cons_ne hc, ih hx' s]
    rfl

theorem splitSlash_no_slash {x : Str} (hx : '/' ∉ x) : splitSlash x = [x] := by
  have hthis := splitSlash_append_seg hx []
  rw [List.append_nil] at hthis
  rw [hthis,
    show (splitSlash ([] : Str)).headI = ([] : Str) from rfl,
    show (splitSlash ([] : Str)).tail = ([] : List Str) from rfl,
    List.append_nil]

theorem splitSlash_joinSegs :
    ∀ (segs : List Str), (∀ x ∈ segs, '/' ∉ x) → segs ≠ [] →
      splitSlash (joinSegs segs) = segs := by
  intro segs
  induction segs with
  | nil => intro _ h; exact absurd rfl h
  | cons x rest ih =>
    intro hall _
    cases rest with
    | nil => exact splitSlash_no_slash (hall x (List.mem_cons_self x []))
    | cons y rest' =>
      rw [joinSegs_cons_cons,
        splitSlash_append_seg (hall x (List.mem_cons_self x (y :: rest'))),
        splitSlash_slash,
        ih (fun z hz => hall z (List.mem_cons_of_mem x hz)) (List.cons_ne_nil y rest')]
      simp

theorem hasDS_cons_cons (a b : Char) (rest : Str) :
    hasDS (a :: b :: rest) = ((a == '/' && b == '/') || hasDS (b :: rest)) := rfl

theorem hasDS_append_no_slash {a : Str} (ha : '/' ∉ a) :
    ∀ b : Str, hasDS (a ++ b) = hasDS b := by
  induction a with
  | nil => intro b; rfl
  | cons c a' ih =>
    intro b
    have hc : c ≠ '/' := fun he => ha (he ▸ List.mem_cons_self c a')
    have ha' : '/' ∉ a' := fun hm => ha (List.mem_cons_of_mem c hm)
    rw [List.cons_append]
    cases hab : a' ++ b with
    | nil =>
      rcases List.append_eq_nil.mp hab with ⟨ha1, hb1⟩
      subst ha1
      subst hb1
      rfl
    | cons d t =>
      rw [hasDS_cons_cons, ← hab, ih ha']
      have hcf : (c == '/') = false := by
        rw [beq_eq_false_iff_ne]
        exact hc
      rw [hcf, Bool.false_and, Bool.false_or]

theorem hasDS_no_slash {x : Str} (hx : '/' ∉ x) : hasDS x = false := by
  have := hasDS_append_no_slash hx []
  rw [List.append_nil] at this
  rw [this]
  rfl

theorem hasDS_joinSegs :
    ∀ (segs : List Str), (∀ x ∈ segs, x ≠ [] ∧ '/' ∉ x) →
      hasDS (joinSegs segs) = false := by
  intro segs
  induction segs with
  | nil => intro _; rfl
  | cons x rest ih =>
    intro hall
    cases rest with
    | nil => exact hasDS_no_slash (hall x (List.mem_cons_self x [])).2
    | cons y rest' =>
      rw [joinSegs_cons_cons,
        hasDS_append_no_slash (hall x (List.mem_cons_self x (y :: rest'))).2]
      obtain ⟨hy1, hy2⟩ := hall y (List.mem_cons_of_mem x (List.mem_cons_self y rest'))
      obtain ⟨c, y', hyc⟩ := List.exists_cons_of_ne_nil hy1
      obtain ⟨z, hz⟩ := joinSegs_head y rest'
      rw [hz, hyc, List.cons_append, hasDS_cons_cons]
      have hcf : (c == '/') = false := by
        rw [beq_eq_false_iff_ne]
        intro he
        exact hy2 (by rw [hyc, he]; exact List.mem_cons_self '/' y')
      rw [hcf, Bool.and_false, Bool.false_or, ← List.cons_append, ← hyc, ← hz]
      exact ih (fun w hw => hall w (List.mem_cons_of_mem x hw))

theorem collapseDS_cons_cons (a b : Char) (rest : Str) :
    collapseDS (a :: b :: rest) =
      if a = '/' ∧ b = '/' then '/' :: collapseDS rest
      else a :: collapseDS (b :: rest) := rfl

theorem collapseDS_eq_self : ∀ s : Str, hasDS s = false → collapseDS s = s := by
  intro s
  induction s with
  | nil => intro _; rfl
  | cons a t ih =>
    cases t with
    | nil => intro _; rfl
    | cons b r =>
      intro h
      rw [hasDS_cons_cons] at h
      rcases Bool.or_eq_false_iff.mp h with ⟨h1, h2⟩
      rw [collapseDS_cons_cons, if_neg (by
        rintro ⟨ha, hb⟩
        rw [ha, hb] at h1
        simp at h1)]
      rw [ih h2]

theorem joinSegs_replicate :
    ∀ (k : Nat) (rest : List Str), rest ≠ [] →
      joinSegs (List.replicate k ("..".toList) ++ rest) =
        pyRepeat ("../".toList) k ++ joinSegs rest := by
  intro k
  induction k with
  | zero =>
    intro rest _
    rw [List.replicate_zero, List.nil_append]
    rfl
  | succ k ih =>
    intro rest hrest
    rw [List.replicate_succ, List.cons_append]
    cases hx : List.replicate k ("..".toList) ++ rest with
    | nil => exact absurd (List.append_eq_nil.mp hx).2 hrest
    | cons y ys =>
      rw [show joinSegs (("..".toList) :: y :: ys) =
          ("..".toList) ++ '/' :: joinSegs (y :: ys) from rfl]
      rw [← hx, ih rest hrest]
      rfl

theorem joinSegs_cons_of_ne_nil (t : Str) {rest : List Str} (h : rest ≠ []) :
    joinSegs (t :: rest) = t ++ '/' :: joinSegs rest := by
  cases rest with
  | nil => exact absurd rfl h
  | cons y r => rfl

theorem collapseDS_dots {s : Str} (h : s.head? ≠ some '/') :
    collapseDS ('.' :: '.' :: '/' :: s) = '.' :: '.' :: '/' :: collapseDS s := by
  cases s with
  | nil => rfl
  | cons c t =>
    have hc : c ≠ '/' := fun he => h (by rw [he]; rfl)
    rw [collapseDS_cons_cons, if_neg (by decide)]
    rw [collapseDS_cons_cons, if_neg (by decide)]
    rw [collapseDS_cons_cons, if_neg (fun hand => hc hand.2)]

theorem collapseDS_repeat_junction :
    ∀ (m : Nat) (rest : Str), hasDS rest = false → rest.head? ≠ some '/' →
      collapseDS (pyRepeat ("../".toList) (m + 1) ++ '/' :: rest) =
        pyRepeat ("../".toList) (m + 1) ++ rest := by
  intro m
  induction m with
  | zero =>
    intro rest hds hh
    show collapseDS ('.' :: '.' :: '/' :: '/' :: rest) = '.' :: '.' :: '/' :: rest
    rw [collapseDS_cons_cons, if_neg (by decide)]
    rw [collapseDS_cons_cons, if_neg (by decide)]
    rw [collapseDS_cons_cons, if_pos (by decide)]
    rw [collapseDS_eq_self rest hds]
  | succ m ih =>
    intro rest hds hh
    show collapseDS ('.' :: '.' :: '/' ::
        (pyRepeat ("../".toList) (m + 1) ++ '/' :: rest)) =
      '.' :: '.' :: '/' :: (pyRepeat ("../".toList) (m + 1) ++ rest)
    have hh2 : (pyRepeat ("../".toList) (m + 1) ++ '/' :: rest).head? ≠ some '/' := by
      show (some '.' : Option Char) ≠ some '/'
      decide
    rw [collapseDS_dots hh2, ih rest hds hh]

theorem navStep_empty (base : List Str) : navStep base [] = base := rfl

theorem navStep_up (base : List Str) :
    navStep base ("..".toList) = base.dropLast := by
  unfold navStep
  rw [if_neg (by decide), if_pos (by decide)]

theorem navStep_seg {x : Str} (h1 : x ≠ []) (h2 : x ≠ ('.' :: '.' :: []))
    (base : List Str) : navStep base x = base ++ [x] := by
  unfold navStep
  rw [if_neg h1, if_neg h2]

theorem foldl_navStep_ups :
    ∀ (k : Nat) (base : List Str), base.length = k →
      List.foldl navStep base (List.replicate k ("..".toList)) = [] := by
  intro k
  induction k with
  | zero =>
    intro base hb
    rw [List.eq_nil_of_length_eq_zero hb, List.replicate_zero]
    rfl
  | succ k ih =>
    intro base hb
    rw [List.replicate_succ, List.foldl_cons, navStep_up]
    exact ih base.dropLast (by rw [List.length_dropLast, hb]; rfl)

theorem foldl_navStep_good :
    ∀ (l : List Str) (base : List Str),
      (∀ x ∈ l, x ≠ [] ∧ x ≠ ('.' :: '.' :: [])) →
      List.foldl navStep base l = base ++ l := by
  intro l
  induction l with
  | nil => intro base _; exact (List.append_nil base).symm
  | cons x l' ih =>
    intro base hall
    obtain ⟨h1, h2⟩ := hall x (List.mem_cons_self x l')
    rw [List.foldl_cons, navStep_seg h1 h2,
      ih (base ++ [x]) (fun z hz => hall z (List.mem_cons_of_mem x hz)),
      List.append_assoc]
    rfl

theorem good_for_join {k : Nat} {rest : List Str}
    (hrest : ∀ x ∈ rest, x ≠ [] ∧ '/' ∉ x) :
    ∀ x ∈ List.replicate k ("..".toList) ++ rest, x ≠ [] ∧ '/' ∉ x := by
  intro x hx
  rcases List.mem_append.mp hx with hx | hx
  · have hx2 := List.eq_of_mem_replicate hx
    subst hx2
    exact ⟨by decide, by decide⟩
  · exact hrest x hx

theorem good_s_f {s : List Str} (hs : ∀ x ∈ s, goodSeg x) :
    ∀ x ∈ s ++ [("index.html".toList)], x ≠ [] ∧ '/' ∉ x := by
  intro x hx
  rcases List.mem_append.mp hx with hx | hx
  · exact ⟨(hs x hx).1, (hs x hx).2.1⟩
  · rw [List.mem_singleton] at hx
    subst hx
    exact ⟨by decide, by decide⟩

theorem joinSegs_head_ne_slash {segs : List Str}
    (hall : ∀ x ∈ segs, x ≠ [] ∧ '/' ∉ x) (hne : segs ≠ []) :
    (joinSegs segs).head? ≠ some '/' := by
  cases segs with
  | nil => exact absurd rfl hne
  | cons x rest =>
    obtain ⟨h1, h2⟩ := hall x (List.mem_cons_self x rest)
    obtain ⟨c, x', hxc⟩ := List.exists_cons_of_ne_nil h1
    obtain ⟨z, hz⟩ := joinSegs_head x rest
    rw [hz, hxc, List.cons_append]
    intro hcon
    simp at hcon
    exact h2 (by rw [hxc, hcon]; exact List.mem_cons_self '/' x')

theorem computeValue_mkParts (dv t lat : Str) (s : List Str)
    (ht : t ≠ dv) (hgt : goodSeg t) (hs : ∀ x ∈ s, goodSeg x) :
    computeOptionValue (mkParts dv lat s) t dv lat =
      joinSegs (List.replicate ((mkParts dv lat s).length - 1) ("..".toList) ++
        (if t = lat then [] else [t]) ++ (s ++ [("index.html".toList)])) := by
  have hsf : s ++ [("index.html".toList)] ≠ [] :=
    fun h => List.cons_ne_nil _ _ (List.append_eq_nil.mp h).2
  have hrel : (if dv = lat then strPath (mkParts dv lat s)
      else strPath (mkParts dv lat s).tail) =
      joinSegs (s ++ [("index.html".toList)]) := by
    by_cases hd : dv = lat
    · rw [if_pos hd]
      unfold mkParts
      rw [if_pos hd]
      exact strPath_eq_joinSegs hsf
    · rw [if_neg hd]
      unfold mkParts
      rw [if_neg hd]
      rw [show ((dv :: s) ++ [("index.html".toList)]).tail =
        s ++ [("index.html".toList)] from rfl]
      exact strPath_eq_joinSegs hsf
  have hlen : (mkParts dv lat s).length - 1 =
      (if dv = lat then s.length else s.length + 1) := by
    unfold mkParts
    by_cases hd : dv = lat
    · rw [if_pos hd, if_pos hd, List.length_append, List.length_singleton]
      omega
    · rw [if_neg hd, if_neg hd, List.length_append, List.length_cons,
        List.length_singleton]
      omega
  unfold computeOptionValue
  rw [if_neg (fun he => ht he.symm)]
  show collapseDS (pyRepeat ("../".toList) ((mkParts dv lat s).length - 1) ++
      (if t ≠ lat then t else []) ++ '/' ::
      (if dv = lat then strPath (mkParts dv lat s)
        else strPath (mkParts dv lat s).tail)) = _
  rw [hrel, hlen]
  by_cases htl : t = lat
  · have hd : dv ≠ lat := fun hdd => ht (htl.trans hdd.symm)
    rw [if_neg hd, if_neg (fun hne => hne htl), if_pos htl,
      List.append_nil, List.append_nil]
    rw [collapseDS_repeat_junction s.length (joinSegs (s ++ [("index.html".toList)]))
      (hasDS_joinSegs _ (good_s_f hs))
      (joinSegs_head_ne_slash (good_s_f hs) hsf)]
    rw [joinSegs_replicate (s.length + 1) (s ++ [("index.html".toList)]) hsf]
  · rw [if_pos htl, if_neg htl, List.append_assoc,
      show t ++ '/' :: joinSegs (s ++ [("index.html".toList)]) =
        joinSegs (t :: (s ++ [("index.html".toList)])) from
        (joinSegs_cons_of_ne_nil t hsf).symm]
    rw [← joinSegs_replicate (if dv = lat then s.length else s.length + 1)
      (t :: (s ++ [("index.html".toList)])) (List.cons_ne_nil _ _)]
    rw [collapseDS_eq_self _ (by
      refine hasDS_joinSegs _ ?_
      refine good_for_join ?_
      intro x hx
      rcases List.mem_cons.mp hx with hx | hx
      · subst hx
        exact ⟨hgt.1, hgt.2.1⟩
      · exact good_s_f hs x hx)]
    rw [List.append_assoc, List.singleton_append]

theorem ups_prefix_ne_nil (dv t lat : Str) (s : List Str) (ht : t ≠ dv) :
    List.replicate ((mkParts dv lat s).length - 1) ("..".toList) ++
      (if t = lat then [] else [t]) ++ s ≠ [] := by
  by_cases htl : t = lat
  · have hd : dv ≠ lat := fun hdd => ht (htl.trans hdd.symm)
    have hlen2 : (mkParts dv lat s).length - 1 = s.length + 1 := by
      unfold mkParts
      rw [if_neg hd, List.length_append, List.length_cons, List.length_singleton]
      omega
    intro hcon
    rcases List.append_eq_nil.mp hcon with ⟨h1, _⟩
    rcases List.append_eq_nil.mp h1 with ⟨hR, _⟩
    rw [hlen2, List.replicate_succ] at hR
    exact List.cons_ne_nil _ _ hR
  · intro hcon
    rcases List.append_eq_nil.mp hcon with ⟨h1, _⟩
    rcases List.append_eq_nil.mp h1 with ⟨_, hT⟩
    rw [if_neg htl] at hT
    exact List.cons_ne_nil t [] hT

theorem getValue_mkParts (dv t lat : Str) (s : List Str)
    (ht : t ≠ dv) (hgt : goodSeg t) (hs : ∀ x ∈ s, goodSeg x) :
    get_value_for_option (mkParts dv lat s) t dv lat =
      joinSegs (List.replicate ((mkParts dv lat s).length - 1) ("..".toList) ++
        (if t = lat then [] else [t]) ++ s) ++ ['/'] := by
  rw [get_value_for_option, computeValue_mkParts dv t lat s ht hgt hs,
    ← List.append_assoc,
    joinSegs_append_last _ (ups_prefix_ne_nil dv t lat s ht) ("index.html".toList),
    pyRstrip_stop (fun c hc => hc) (by decide),
    pyRstrip_concat_not_mem (by decide)]

theorem mkParts_dropLast (dv lat : Str) (s : List Str) :
    (mkParts dv lat s).dropLast = if dv = lat then s else dv :: s := by
  unfold mkParts
  exact List.dropLast_concat ..

theorem navigate_mkParts (dv t lat : Str) (s : List Str)
    (ht : t ≠ dv) (hgt : goodSeg t) (hs : ∀ x ∈ s, goodSeg x) :
    navigate ((mkParts dv lat s).dropLast)
      (get_value_for_option (mkParts dv lat s) t dv lat) =
      (if t = lat then [] else [t]) ++ s := by
  have hP := ups_prefix_ne_nil dv t lat s ht
  have hT : ∀ x ∈ (if t = lat then [] else [t]), x ≠ [] ∧ x ≠ ('.' :: '.' :: []) := by
    by_cases htl : t = lat
    · rw [if_pos htl]
      intro x hx
      exact absurd hx (List.not_mem_nil x)
    · rw [if_neg htl]
      intro x hx
      rw [List.mem_singleton] at hx
      subst hx
      exact ⟨hgt.1, hgt.2.2⟩
  have hslash : ∀ x ∈ (List.replicate ((mkParts dv lat s).length - 1) ("..".toList) ++
      (if t = lat then [] else [t]) ++ s) ++ [([] : Str)], '/' ∉ x := by
    intro x hx
    rcases List.mem_append.mp hx with hx | hx
    · rcases List.mem_append.mp hx with hx | hx
      · rcases List.mem_append.mp hx with hx | hx
        · have hx2 := List.eq_of_mem_replicate hx
          subst hx2
          decide
        · by_cases htl : t = lat
          · rw [if_pos htl] at hx
            exact absurd hx (List.not_mem_nil x)
          · rw [if_neg htl] at hx
            rw [List.mem_singleton] at hx
            subst hx
            exact hgt.2.1
      · exact (hs x hx).2.1
    · rw [List.mem_singleton] at hx
      subst hx
      exact List.not_mem_nil '/'
  rw [getValue_mkParts dv t lat s ht hgt hs]
  unfold navigate
  rw [← joinSegs_append_last _ hP ([] : Str)]
  rw [splitSlash_joinSegs _ hslash (by
    intro hcon
    exact List.cons_ne_nil _ _ (List.append_eq_nil.mp hcon).2)]
  rw [List.foldl_append, List.foldl_cons, List.foldl_nil, navStep_empty]
  rw [List.foldl_append, List.foldl_append]
  rw [foldl_navStep_ups ((mkParts dv lat s).length - 1) ((mkParts dv lat s).dropLast)
    (List.length_dropLast _)]
  rw [foldl_navStep_good _ _ hT, List.nil_append,
    foldl_navStep_good _ _ (fun x hx => ⟨(hs x hx).1, (hs x hx).2.2⟩)]

/-- C8 counterexample: when the first hop's target equals the document's own
version, the produced value is the document-root-relative path (Case A of the
source), which navigated from the document's directory lands in the wrong
place; the subsequent hop and the direct resolution disagree. -/
theorem c8_counterexample :
    ¬ roundTrip [("a".toList), ("index.html".toList)]
        ("v2".toList) ("v2".toList) ("m".toList) ("v2".toList) := by
  unfold roundTrip
  decide

/-- C8 amended: the round-trip law holds for dirhtml documents (file name
index.html) whenever the hop targets avoid the selected option: for v1
different from the document's version, v2 different from v1 and from the
document's version, resolving toward v1, navigating there, and resolving
again toward v2 lands exactly where the direct resolution toward v2 lands. -/
theorem c8_amended (dv v1 v2 lat : Str) (s : List Str)
    (hg1 : goodSeg v1) (hg2 : goodSeg v2) (hs : ∀ x ∈ s, goodSeg x)
    (h1 : v1 ≠ dv) (h21 : v2 ≠ v1) (h2d : v2 ≠ dv) :
    roundTrip (mkParts dv lat s) dv v1 v2 lat := by
  unfold roundTrip
  rw [navigate_mkParts dv v1 lat s h1 hg1 hs]
  have hL : ((if v1 = lat then [] else [v1]) ++ s) ++ [("index.html".toList)] =
      mkParts v1 lat s := by
    unfold mkParts
    by_cases hv : v1 = lat
    · rw [if_pos hv, if_pos hv, List.nil_append]
    · rw [if_neg hv, if_neg hv, List.singleton_append]
  rw [hL]
  have hd2 : (if v1 = lat then [] else [v1]) ++ s = (mkParts v1 lat s).dropLast := by
    rw [mkParts_dropLast]
    by_cases hv : v1 = lat
    · rw [if_pos hv, if_pos hv, List.nil_append]
    · rw [if_neg hv, if_neg hv, List.singleton_append]
  rw [hd2]
  rw [navigate_mkParts v1 v2 lat s h21 hg2 hs]
  rw [navigate_mkParts dv v2 lat s h2d hg2 hs]

theorem c8_witness :
    roundTrip (mkParts ("v1.2.3".toList) ("v1.2.3".toList)
        [("fundamentals".toList), ("document".toList)])
      ("v1.2.3".toList) ("master".toList) ("v1.2.4".toList) ("v1.2.3".toList) :=
  c8_amended ("v1.2.3".toList) ("master".toList) ("v1.2.4".toList) ("v1.2.3".toList)
    [("fundamentals".toList), ("document".toList)]
    (by decide) (by decide) (by decide) (by decide) (by decide) (by decide)
